import Mathlib

/-!
Verification development for the Markdown-to-HTML conversion pipeline of the
vcu-qa-analyzer repository.  The Python source is shallowly embedded: the
regex-driven rewrite passes (`src/processors/mermaid_processor.py`,
`src/processors/image_processor.py`) are modelled as executable scans over
`List Char`, path and file-system operations are modelled over `String` with
an explicit existence oracle, and the converter pipeline
(`src/core/converter.py`) is modelled with `Except`-valued stage oracles so
that the top-level exception handling becomes explicit case analysis.
-/

set_option maxRecDepth 100000

/-! ## Basic list-scanning infrastructure -/

/-- Prefix test: `begins pat s` is true when `pat` is an initial segment of `s`
(the Boolean prefix test used by the scan embeddings). -/
def begins : List Char → List Char → Bool
  | [], _ => true
  | _ :: _, [] => false
  | a :: as, b :: bs => a = b && begins as bs

/-- Leftmost search: `findSub pat s` splits `s` at the first occurrence of `pat`:
it returns `some (before, after)` with `s = before ++ pat ++ after`
and `before` shortest, or `none` when `pat` does not occur in `s`.
This models a leftmost regex search for a literal token. -/
def findSub (pat : List Char) : List Char → Option (List Char × List Char)
  | [] => if begins pat [] then some ([], []) else none
  | c :: cs =>
    if begins pat (c :: cs) then some ([], (c :: cs).drop pat.length)
    else
      match findSub pat cs with
      | some (a, b) => some (c :: a, b)
      | none => none

/-- Occurrence test: `occursIn pat s` is true when the literal token `pat` occurs somewhere in `s`. -/
def occursIn (pat s : List Char) : Bool := (findSub pat s).isSome

theorem begins_iff (pat : List Char) : ∀ s, begins pat s = true ↔ ∃ r, s = pat ++ r := by
  induction pat with
  | nil => intro s; simp [begins]
  | cons a as ih =>
    intro s
    cases s with
    | nil => simp [begins]
    | cons b bs =>
      simp only [begins, Bool.and_eq_true, decide_eq_true_eq, List.cons_append]
      constructor
      · rintro ⟨rfl, h⟩
        obtain ⟨r, rfl⟩ := (ih bs).mp h
        exact ⟨r, rfl⟩
      · rintro ⟨r, heq⟩
        cases heq
        exact ⟨rfl, (ih (as ++ r)).mpr ⟨r, rfl⟩⟩

theorem begins_drop {pat s : List Char} (h : begins pat s = true) :
    s = pat ++ s.drop pat.length := by
  obtain ⟨r, rfl⟩ := (begins_iff pat s).mp h
  rw [List.drop_left]

theorem begins_append (pat r : List Char) : begins pat (pat ++ r) = true :=
  (begins_iff pat (pat ++ r)).mpr ⟨r, rfl⟩

theorem findSub_eq_some {pat : List Char} :
    ∀ {s a b}, findSub pat s = some (a, b) → s = a ++ pat ++ b := by
  intro s
  induction s with
  | nil =>
    intro a b h
    simp only [findSub] at h
    split at h
    · rename_i hb
      obtain ⟨r, hr⟩ := (begins_iff pat []).mp hb
      cases List.append_eq_nil.mp hr.symm with
      | intro h1 h2 =>
        simp only [Option.some.injEq, Prod.mk.injEq] at h
        simp [← h.1, ← h.2, h1, h2]
    · exact absurd h (by simp)
  | cons c cs ih =>
    intro a b h
    simp only [findSub] at h
    split at h
    · rename_i hb
      simp only [Option.some.injEq, Prod.mk.injEq] at h
      rw [← h.1, ← h.2, List.nil_append]
      exact begins_drop hb
    · revert h
      cases hrec : findSub pat cs with
      | none => intro h; exact absurd h (by simp)
      | some ab =>
        intro h
        simp only [Option.some.injEq, Prod.mk.injEq] at h
        have := @ih ab.1 ab.2 (by rw [hrec])
        rw [← h.1, ← h.2]
        simp [this]

theorem occursIn_iff (pat : List Char) :
    ∀ s, occursIn pat s = true ↔ ∃ a b, s = a ++ pat ++ b := by
  intro s
  induction s with
  | nil =>
    simp only [occursIn, findSub]
    constructor
    · intro h
      split at h
      · rename_i hb
        obtain ⟨r, hr⟩ := (begins_iff pat []).mp hb
        cases List.append_eq_nil.mp hr.symm with
        | intro h1 h2 => exact ⟨[], [], by simp [h1, h2]⟩
      · simp at h
    · rintro ⟨a, b, hab⟩
      have hb : begins pat [] = true := by
        cases List.append_eq_nil.mp hab.symm with
        | intro h1 h2 =>
          cases List.append_eq_nil.mp h1 with
          | intro h3 h4 => rw [h4]; simp [begins]
      simp [hb]
  | cons c cs ih =>
    simp only [occursIn, findSub]
    constructor
    · intro h
      split at h
      · rename_i hb
        exact ⟨[], (c :: cs).drop pat.length, by simpa using begins_drop hb⟩
      · revert h
        cases hrec : findSub pat cs with
        | none => intro h; simp at h
        | some ab =>
          intro _
          have := @findSub_eq_some pat cs ab.1 ab.2 (by rw [hrec])
          exact ⟨c :: ab.1, ab.2, by simp [this]⟩
    · rintro ⟨a, b, hab⟩
      split
      · simp
      · rename_i hnb
        cases a with
        | nil =>
          exfalso
          apply hnb
          rw [hab]
          simpa using begins_append pat b
        | cons a0 as =>
          have hcs : cs = as ++ pat ++ b := by
            have := hab
            simp only [List.cons_append, List.cons.injEq, List.append_assoc] at this
            simpa [List.append_assoc] using this.2
          have : occursIn pat cs = true := (ih).mpr ⟨as, b, hcs⟩
          simp only [occursIn] at this
          cases hrec : findSub pat cs with
          | none => rw [hrec] at this; simp at this
          | some ab => simp

theorem occursIn_left {pat a b : List Char} (h : occursIn pat a = true) :
    occursIn pat (a ++ b) = true := by
  obtain ⟨x, y, hxy⟩ := (occursIn_iff pat a).mp h
  exact (occursIn_iff pat (a ++ b)).mpr ⟨x, y ++ b, by simp [hxy]⟩

theorem occursIn_right {pat a b : List Char} (h : occursIn pat b = true) :
    occursIn pat (a ++ b) = true := by
  obtain ⟨x, y, hxy⟩ := (occursIn_iff pat b).mp h
  exact (occursIn_iff pat (a ++ b)).mpr ⟨a ++ x, y, by simp [hxy]⟩

theorem occursIn_of_drop {pat s : List Char} {k : Nat}
    (h : occursIn pat (s.drop k) = true) : occursIn pat s = true := by
  have hs : s = s.take k ++ s.drop k := (List.take_append_drop k s).symm
  rw [hs]
  exact occursIn_right h

theorem mem_of_occursIn {pat s : List Char} {c : Char}
    (h : occursIn pat s = true) (hc : c ∈ pat) : c ∈ s := by
  obtain ⟨a, b, hab⟩ := (occursIn_iff pat s).mp h
  rw [hab]
  simp [hc]

/-- Two decompositions of the same list: the shorter first part is an
initial segment of the longer one. -/
theorem append_eq_append_split {a b c d : List Char} (h : a ++ b = c ++ d) :
    (∃ m, a = c ++ m ∧ d = m ++ b) ∨ (∃ m, c = a ++ m ∧ b = m ++ d) := by
  induction a generalizing c with
  | nil =>
    right
    exact ⟨c, rfl, by simpa using h⟩
  | cons x xs ih =>
    cases c with
    | nil =>
      left
      exact ⟨x :: xs, rfl, by simpa using h.symm⟩
    | cons y ys =>
      simp only [List.cons_append, List.cons.injEq] at h
      rcases ih h.2 with ⟨m, h1, h2⟩ | ⟨m, h1, h2⟩
      · exact Or.inl ⟨m, by simp [h.1, h1], h2⟩
      · exact Or.inr ⟨m, by simp [h.1, h1], h2⟩

/-- An occurrence of `pat` in `x ++ y` lies in `x`, lies in `y`, or spans
the boundary with a nonempty part on each side. -/
theorem occursIn_append_split {pat x y : List Char}
    (h : occursIn pat (x ++ y) = true) :
    occursIn pat x = true ∨ occursIn pat y = true ∨
      ∃ p1 p2, pat = p1 ++ p2 ∧ p1 ≠ [] ∧ p2 ≠ [] ∧
        (∃ a, x = a ++ p1) ∧ (∃ b, y = p2 ++ b) := by
  induction x with
  | nil => right; left; simpa using h
  | cons c cs ih =>
    obtain ⟨a, b, hab⟩ := (occursIn_iff pat _).mp h
    cases a with
    | nil =>
      -- pat starts at the head of x
      simp only [List.nil_append, List.cons_append] at hab
      cases pat with
      | nil => exact Or.inl ((occursIn_iff [] (c :: cs)).mpr ⟨[], c :: cs, rfl⟩)
      | cons p ps =>
        simp only [List.cons_append, List.cons.injEq] at hab
        rcases @append_eq_append_split ps b cs y hab.2.symm with
          ⟨m, h1, h2⟩ | ⟨m, h1, h2⟩
        · -- ps extends past cs into y
          cases m with
          | nil =>
            left
            refine (occursIn_iff (p :: ps) (c :: cs)).mpr ⟨[], [], ?_⟩
            simp [hab.1, h1]
          | cons m0 ms =>
            right; right
            refine ⟨p :: cs, m0 :: ms, ?_, by simp, by simp, ⟨[], by simp [hab.1]⟩,
              ⟨b, h2⟩⟩
            simp [h1, hab.1]
        · -- pat fits inside x
          left
          exact (occursIn_iff (p :: ps) (c :: cs)).mpr ⟨[], m, by simp [hab.1, h1]⟩
    | cons a0 as =>
      have hcs : occursIn pat (cs ++ y) = true := by
        refine (occursIn_iff pat (cs ++ y)).mpr ⟨as, b, ?_⟩
        have := hab
        simp only [List.cons_append, List.cons.injEq, List.append_assoc] at this
        simpa [List.append_assoc] using this.2
      rcases ih hcs with h1 | h1 | ⟨p1, p2, hp, hp1, hp2, ⟨a2, ha2⟩, hb2⟩
      · left
        obtain ⟨u, v, huv⟩ := (occursIn_iff pat cs).mp h1
        exact (occursIn_iff pat (c :: cs)).mpr ⟨c :: u, v, by simp [huv]⟩
      · right; left; exact h1
      · right; right
        exact ⟨p1, p2, hp, hp1, hp2, ⟨c :: a2, by simp [ha2]⟩, hb2⟩

/-! ## DiagramRewriter (`src/processors/mermaid_processor.py`)

The pattern is `r'```mermaid\n(.*?)\n```'` with `re.DOTALL`: an opening
token, a shortest body, then a closing token.  `re.sub` scans left to
right; at each position it either matches (opening token present and a
closing token occurs later — the non-greedy body ends at the *first*
closing token) or advances one character. -/

/-- The opening token of a fenced Mermaid block. -/
def mOpen : List Char := "```mermaid\n".toList

/-- The first ten characters of the opening token (without the newline). -/
def mOpen10 : List Char := "```mermaid".toList

/-- The closing token of a fenced Mermaid block. -/
def mClose : List Char := "\n```".toList

/-- Replacement markup before the diagram body:
`f'<div class="mermaid">\n{mermaid_code}\n</div>'`. -/
def mDiv1 : List Char := "<div class=\"mermaid\">\n".toList

/-- Replacement markup after the diagram body. -/
def mDiv2 : List Char := "\n</div>".toList

/-- The first character of the opening token (a backtick). -/
def mHead : Char := mOpen.headI

/-- One regex-match attempt at the current position: `some (body, rest)`
if the Mermaid pattern matches here (shortest body), `none` otherwise. -/
def mStep (s : List Char) : Option (List Char × List Char) :=
  if begins mOpen s then findSub mClose (s.drop 11) else none

theorem mStep_eq_some {s body rest : List Char} (h : mStep s = some (body, rest)) :
    s = mOpen ++ body ++ mClose ++ rest := by
  simp only [mStep] at h
  split at h
  · rename_i hb
    have h1 := begins_drop hb
    have h2 := findSub_eq_some h
    have hlen : mOpen.length = 11 := by decide
    rw [hlen] at h1
    rw [h1, h2]
    simp
  · simp at h

theorem mOpen_split : mOpen = mOpen10 ++ ['\n'] := by decide

namespace MermaidProcessor

/-- The scan behind `MermaidProcessor.process`, fuelled to keep the
recursion structural (fuel is at least the length of the remaining text
at every call, so the fuel-exhausted branch is never taken). -/
def mpAux : Nat → List Char → List Char
  | 0, s => s
  | _ + 1, [] => []
  | fuel + 1, c :: cs =>
    match mStep (c :: cs) with
    | some (body, rest) => mDiv1 ++ body ++ mDiv2 ++ mpAux fuel rest
    | none => c :: mpAux fuel cs

/-- Model of `MermaidProcessor.process`: replace every fenced Mermaid block by the
`<div class="mermaid">…</div>` wrapper, left to right. -/
def process (content : String) : String :=
  (mpAux content.length content.toList).asString

/-- The scan behind `MermaidProcessor.has_mermaid` (`re.search`). -/
def hasMermaidL : List Char → Bool
  | [] => false
  | c :: cs => (mStep (c :: cs)).isSome || hasMermaidL cs

/-- Model of `MermaidProcessor.has_mermaid`: whether a fenced Mermaid block occurs. -/
def has_mermaid (content : String) : Bool :=
  hasMermaidL content.toList

/-- The scan behind `MermaidProcessor.extract_diagrams` (`re.findall`). -/
def exAux : Nat → List Char → List (List Char)
  | 0, _ => []
  | _ + 1, [] => []
  | fuel + 1, c :: cs =>
    match mStep (c :: cs) with
    | some (body, rest) => body :: exAux fuel rest
    | none => exAux fuel cs

/-- Model of `MermaidProcessor.extract_diagrams`: the bodies of all fenced Mermaid
blocks, in order. -/
def extract_diagrams (content : String) : List String :=
  (exAux content.length content.toList).map List.asString

/-- Model of `MermaidProcessor.get_mermaid_script`: the client-side bootstrap that
loads Mermaid.js from an ordered CDN list with a preformatted-text
fallback.  The JavaScript payload is an opaque asset; its text is
abbreviated here since no claim depends on its contents. -/
def get_mermaid_script : String :=
  "\n        // Mermaid.js multi-CDN bootstrap: try each CDN in order;\n        // if all fail, replace each .mermaid container by its raw text\n        // inside a preformatted block.  (payload elided)\n        "

end MermaidProcessor

/-! ## Roundtrip analysis for the DiagramRewriter -/

namespace MermaidProcessor

theorem mStep_none_of_noClose {s : List Char}
    (hc : occursIn mClose (s.drop 11) = false) : mStep s = none := by
  simp only [mStep]
  split
  · cases hfs : findSub mClose (s.drop 11) with
    | none => rfl
    | some ab =>
      exfalso
      have : occursIn mClose (s.drop 11) = true := by
        simp [occursIn, hfs]
      rw [this] at hc
      exact Bool.true_eq_false.mp hc
  · rfl

theorem noClose_tail {c : Char} {cs : List Char}
    (h : occursIn mClose ((c :: cs).drop 11) = false) :
    occursIn mClose (cs.drop 11) = false := by
  cases hx : occursIn mClose (cs.drop 11) with
  | false => rfl
  | true =>
    exfalso
    have h12 : cs.drop 11 = ((c :: cs).drop 11).drop 1 := by
      rw [List.drop_drop]
      rfl
    rw [h12] at hx
    have := occursIn_of_drop hx
    rw [this] at h
    exact Bool.true_eq_false.mp h

/-- When no closing token occurs past the scan offset, the rewrite pass is
the identity. -/
theorem mpAux_id_of_noClose :
    ∀ (fuel : Nat) (s : List Char), occursIn mClose (s.drop 11) = false →
      mpAux fuel s = s := by
  intro fuel
  induction fuel with
  | zero => intro s _; rfl
  | succ n ih =>
    intro s hs
    cases s with
    | nil => rfl
    | cons c cs =>
      have hnone : mStep (c :: cs) = none := mStep_none_of_noClose hs
      simp only [mpAux, hnone]
      rw [ih cs (noClose_tail hs)]

/-- When no closing token occurs past the scan offset, no match exists. -/
theorem hasMermaidL_eq_false_of_noClose :
    ∀ s : List Char, occursIn mClose (s.drop 11) = false →
      hasMermaidL s = false := by
  intro s
  induction s with
  | nil => intro _; rfl
  | cons c cs ih =>
    intro hs
    have hnone : mStep (c :: cs) = none := mStep_none_of_noClose hs
    simp only [hasMermaidL, hnone, Option.isSome_none, Bool.false_or]
    exact ih (noClose_tail hs)

theorem begins_nil_right {w : List Char} (h : begins w [] = true) : w = [] := by
  cases w with
  | nil => rfl
  | cons a as => simp [begins] at h

theorem begins_cons_cons {a b : Char} {w t : List Char} :
    begins (a :: w) (b :: t) = true ↔ a = b ∧ begins w t = true := by
  simp [begins]

/-- The first characters that the rewrite pass emits are either copied
from the input or start with `'<'` (from the replacement markup); hence a
`'<'`-free token beginning the output also begins the input. -/
theorem begins_of_begins_mpAux :
    ∀ (fuel : Nat) (w t : List Char), '<' ∉ w →
      begins w (mpAux fuel t) = true → begins w t = true := by
  intro fuel
  induction fuel with
  | zero => intro w t _ h; exact h
  | succ n ih =>
    intro w t hw h
    cases t with
    | nil =>
      rw [begins_nil_right h]
      rfl
    | cons c cs =>
      cases hms : mStep (c :: cs) with
      | some br =>
        cases w with
        | nil => rfl
        | cons a as =>
          exfalso
          rw [show mpAux (n + 1) (c :: cs) =
              mDiv1 ++ br.1 ++ mDiv2 ++ mpAux n br.2 by
            simp only [mpAux, hms]] at h
          have ha : a = '<' := by
            have : begins (a :: as)
                ('<' :: ("div class=\"mermaid\">\n".toList ++
                  (br.1 ++ (mDiv2 ++ mpAux n br.2)))) = true := by
              simpa [mDiv1] using h
            exact (begins_cons_cons.mp this).1
          exact hw (by simp [ha])
      | none =>
        rw [show mpAux (n + 1) (c :: cs) = c :: mpAux n cs by
          simp only [mpAux, hms]] at h
        cases w with
        | nil => rfl
        | cons a as =>
          obtain ⟨hac, hrest⟩ := begins_cons_cons.mp h
          have has : '<' ∉ as := fun hmem => hw (by simp [hmem])
          exact begins_cons_cons.mpr ⟨hac, ih as cs has hrest⟩

/-- Scanning `x ++ u`: if the opening token can begin at no position
inside `x` and `u` itself has no match, then `x ++ u` has no match. -/
theorem hasMermaidL_append_eq_false {x u : List Char}
    (hx : ∀ x2, x2 ≠ [] → (∃ a, x = a ++ x2) → begins mOpen (x2 ++ u) = false)
    (hu : hasMermaidL u = false) : hasMermaidL (x ++ u) = false := by
  induction x with
  | nil => simpa using hu
  | cons c cs ih =>
    have hb : begins mOpen ((c :: cs) ++ u) = false :=
      hx (c :: cs) (by simp) ⟨[], rfl⟩
    have hnone : mStep ((c :: cs) ++ u) = none := by
      simp only [mStep, hb]
      simp
    show hasMermaidL (c :: (cs ++ u)) = false
    have hrec : hasMermaidL (cs ++ u) = false := by
      refine ih (fun x2 hne hsuf => ?_)
      obtain ⟨a, ha⟩ := hsuf
      exact hx x2 hne ⟨c :: a, by simp [ha]⟩
    simp only [hasMermaidL]
    rw [show (c :: (cs ++ u)) = (c :: cs) ++ u by simp, hnone, hrec]
    simp

end MermaidProcessor

theorem occursIn_of_token_left {p q s : List Char}
    (h : occursIn (p ++ q) s = true) : occursIn p s = true := by
  obtain ⟨a, b, hab⟩ := (occursIn_iff (p ++ q) s).mp h
  exact (occursIn_iff p s).mpr ⟨a, q ++ b, by simp [hab]⟩

namespace MermaidProcessor

/-- The replacement block for a body free of the opening token contains no
occurrence of the opening token. -/
theorem open_not_in_block {body : List Char}
    (hb : occursIn mOpen10 body = false) :
    occursIn mOpen (mDiv1 ++ (body ++ mDiv2)) = false := by
  cases hx : occursIn mOpen (mDiv1 ++ (body ++ mDiv2)) with
  | false => rfl
  | true =>
    exfalso
    have hbtick : mHead ∈ mOpen := by decide
    rcases occursIn_append_split hx with h1 | h1 | ⟨p1, p2, hp, hp1, _, ⟨a1, ha1⟩, _⟩
    · exact absurd (mem_of_occursIn h1 hbtick) (by decide)
    · rcases occursIn_append_split h1 with h2 | h2 |
        ⟨q1, q2, hq, hq1, hq2, ⟨a2, ha2⟩, ⟨b2, hb2⟩⟩
      · -- inside the body: the opening token starts with mOpen10
        have : occursIn mOpen10 body = true := by
          rw [mOpen_split] at h2
          exact occursIn_of_token_left h2
        rw [this] at hb
        exact Bool.true_eq_false.mp hb
      · exact absurd (mem_of_occursIn h2 hbtick) (by decide)
      · -- spanning the body / closing-markup boundary
        have hq2head : ∃ q2t, q2 = '\n' :: q2t := by
          cases q2 with
          | nil => exact absurd rfl hq2
          | cons z zs =>
            have hzz : mDiv2 = z :: (zs ++ b2) := by simpa using hb2
            have hz : '\n' = z := by
              have := congrArg (fun l => l.head?) hzz
              simpa [mDiv2] using this
            exact ⟨zs, by rw [← hz]⟩
        obtain ⟨q2t, rfl⟩ := hq2head
        have hq' : q1 ++ '\n' :: q2t = mOpen10 ++ ['\n'] := by
          rw [← mOpen_split, hq]
        rcases append_eq_append_split hq' with ⟨m, hm1, hm2⟩ | ⟨m, hm1, hm2⟩
        · -- q1 extends to (or past) mOpen10
          have hm0 : m = [] := by
            cases m with
            | nil => rfl
            | cons z zs =>
              exfalso
              have hlen := congrArg List.length hm2
              simp [List.length_append] at hlen
          rw [hm0, List.append_nil] at hm1
          have : occursIn mOpen10 body = true :=
            (occursIn_iff mOpen10 body).mpr ⟨a2, [], by simp [ha2, hm1]⟩
          rw [this] at hb
          exact Bool.true_eq_false.mp hb
        · cases m with
          | nil =>
            rw [List.append_nil] at hm1
            have : occursIn mOpen10 body = true :=
              (occursIn_iff mOpen10 body).mpr ⟨a2, [], by simp [ha2, ← hm1]⟩
            rw [this] at hb
            exact Bool.true_eq_false.mp hb
          | cons z zs =>
            have hz : '\n' = z := by
              have := congrArg (fun l => l.head?) hm2
              simpa using this
            have : '\n' ∈ mOpen10 := by
              rw [hm1, ← hz]
              simp
            exact absurd this (by decide)
    · -- spanning the opening-markup boundary: p1 would start with a backtick
      cases p1 with
      | nil => exact absurd rfl hp1
      | cons z zs =>
        have hz : mHead = z := by
          have h0 : mOpen.head? = some z := by rw [hp]; rfl
          have h1 : mOpen.head? = some mHead := by decide
          rw [h0] at h1
          exact (Option.some.inj h1).symm
        have : mHead ∈ mDiv1 := by
          rw [ha1, ← hz]
          simp
        exact absurd this (by decide)

/-- No nonempty tail of a replacement block can begin the opening token,
whatever follows it. -/
theorem rep_block_no_open {body : List Char}
    (hb : occursIn mOpen10 body = false) (u x2 : List Char)
    (hne : x2 ≠ []) (hsuf : ∃ a, mDiv1 ++ (body ++ mDiv2) = a ++ x2) :
    begins mOpen (x2 ++ u) = false := by
  cases hbg : begins mOpen (x2 ++ u) with
  | false => rfl
  | true =>
    exfalso
    obtain ⟨a, ha⟩ := hsuf
    obtain ⟨r, hr⟩ := (begins_iff mOpen (x2 ++ u)).mp hbg
    rcases append_eq_append_split hr.symm with ⟨m, hm1, _⟩ | ⟨m, hm1, _⟩
    · -- x2 is an initial part of the opening token
      cases m with
      | nil =>
        rw [List.append_nil] at hm1
        have : occursIn mOpen (mDiv1 ++ (body ++ mDiv2)) = true := by
          refine (occursIn_iff mOpen _).mpr ⟨a, [], ?_⟩
          rw [ha, ← hm1]
          simp
        rw [open_not_in_block hb] at this
        exact Bool.false_ne_true this
      | cons m0 ms =>
        -- x2 is a strict initial part; compare it with the closing markup
        have hx2div : a ++ x2 = (mDiv1 ++ body) ++ mDiv2 := by
          rw [← ha]
          simp
        rcases append_eq_append_split hx2div with ⟨k, _, hk2⟩ | ⟨k, _, hk2⟩
        · -- x2 is a tail of mDiv2, but x2 starts with a backtick
          cases x2 with
          | nil => exact absurd rfl hne
          | cons z zs =>
            have hz : mHead = z := by
              have h0 : mOpen.head? = some z := by rw [hm1]; rfl
              have h1 : mOpen.head? = some mHead := by decide
              rw [h0] at h1
              exact (Option.some.inj h1).symm
            have : mHead ∈ mDiv2 := by
              rw [hk2, ← hz]
              simp
            exact absurd this (by decide)
        · -- mDiv2 sits inside the opening token, so '<' occurs in it
          have : '<' ∈ mOpen := by
            rw [hm1, hk2]
            have h2 : '<' ∈ mDiv2 := by decide
            simp [h2]
          exact absurd this (by decide)
    · -- the whole opening token sits inside x2, hence inside the block
      have : occursIn mOpen (mDiv1 ++ (body ++ mDiv2)) = true := by
        refine (occursIn_iff mOpen _).mpr ⟨a, m, ?_⟩
        rw [ha, hm1]
        simp
      rw [open_not_in_block hb] at this
      exact Bool.false_ne_true this

end MermaidProcessor

namespace MermaidProcessor

/-- Main scan lemma: when no matched diagram body contains the opening
token, the rewritten text has no match left. -/
theorem no_match_after_mpAux :
    ∀ (fuel : Nat) (s : List Char), s.length ≤ fuel →
      (∀ b ∈ exAux fuel s, occursIn mOpen10 b = false) →
      hasMermaidL (mpAux fuel s) = false := by
  intro fuel
  induction fuel with
  | zero =>
    intro s hlen _
    have hs : s = [] := List.eq_nil_of_length_eq_zero (Nat.le_zero.mp hlen)
    rw [hs]
    rfl
  | succ n ih =>
    intro s hlen hbodies
    cases s with
    | nil => rfl
    | cons c cs =>
      cases hms : mStep (c :: cs) with
      | some br =>
        obtain ⟨body, rest⟩ := br
        have hdec := mStep_eq_some hms
        have hrestlen : rest.length ≤ n := by
          have hlc := congrArg List.length hdec
          have h11 : mOpen.length = 11 := by decide
          have h4 : mClose.length = 4 := by decide
          simp only [List.length_append, List.length_cons, h11, h4] at hlc
          simp only [List.length_cons] at hlen
          omega
        have hbody : occursIn mOpen10 body = false := by
          apply hbodies
          simp only [exAux, hms]
          exact List.mem_cons_self _ _
        have hrest : ∀ b ∈ exAux n rest, occursIn mOpen10 b = false := by
          intro b hbm
          apply hbodies
          simp only [exAux, hms]
          exact List.mem_cons_of_mem _ hbm
        have hout : mpAux (n + 1) (c :: cs) =
            (mDiv1 ++ (body ++ mDiv2)) ++ mpAux n rest := by
          simp only [mpAux, hms]
          simp
        rw [hout]
        exact hasMermaidL_append_eq_false
          (fun x2 hne hsuf => rep_block_no_open hbody _ x2 hne hsuf)
          (ih rest hrestlen hrest)
      | none =>
        have hout : mpAux (n + 1) (c :: cs) = c :: mpAux n cs := by
          simp only [mpAux, hms]
        have hex : exAux (n + 1) (c :: cs) = exAux n cs := by
          simp only [exAux, hms]
        have hcs : ∀ b ∈ exAux n cs, occursIn mOpen10 b = false := by
          intro b hbm
          apply hbodies
          rw [hex]
          exact hbm
        have hlencs : cs.length ≤ n := by
          simp only [List.length_cons] at hlen
          omega
        rw [hout]
        cases hbg : begins mOpen (c :: cs) with
        | false =>
          have hIH := ih cs hlencs hcs
          show ((mStep (c :: mpAux n cs)).isSome || hasMermaidL (mpAux n cs)) = false
          have hb2 : begins mOpen (c :: mpAux n cs) = false := by
            cases hbg2 : begins mOpen (c :: mpAux n cs) with
            | false => rfl
            | true =>
              exfalso
              have hagree : begins mOpen (c :: cs) = true := by
                have hmo : ∃ w, mOpen = mHead :: w := ⟨mOpen.tail, by decide⟩
                obtain ⟨w, hw⟩ := hmo
                rw [hw] at hbg2 ⊢
                obtain ⟨hhc, hrest2⟩ := begins_cons_cons.mp hbg2
                refine begins_cons_cons.mpr ⟨hhc, ?_⟩
                refine begins_of_begins_mpAux n w cs ?_ hrest2
                intro hmem
                have : '<' ∈ mOpen := by
                  rw [hw]
                  simp [hmem]
                exact absurd this (by decide)
              rw [hagree] at hbg
              exact Bool.true_eq_false.mp hbg
          have hform : mStep (c :: mpAux n cs) = none := by
            simp only [mStep, hb2]
            simp
          rw [hform, hIH]
          simp
        | true =>
          -- the opening token matched but no closing token follows
          have hnc : occursIn mClose ((c :: cs).drop 11) = false := by
            simp only [mStep, hbg, if_true] at hms
            simp only [occursIn, hms]
            rfl
          have hcseq : mpAux n cs = cs := mpAux_id_of_noClose n cs (noClose_tail hnc)
          rw [hcseq]
          show ((mStep (c :: cs)).isSome || hasMermaidL cs) = false
          rw [hms, hasMermaidL_eq_false_of_noClose cs (noClose_tail hnc)]
          simp

end MermaidProcessor

/-- C3 (counterexample): the round-trip claim fails on overlapping fences.
For the input `"```mermaid\n```mermaid\nA\n```\nB\n```"` one rewrite pass
produces `"<div class=\"mermaid\">\n```mermaid\nA\n</div>\nB\n```"`, on
which the presence query still reports true. -/
theorem claim_C3_counterexample :
    MermaidProcessor.has_mermaid
      (MermaidProcessor.process "```mermaid\n```mermaid\nA\n```\nB\n```") = true := by
  decide

/-- C3 (amended): one DiagramRewriter pass leaves no recognizable fenced
diagram syntax — `has_mermaid` on the output is false — provided no
extracted diagram body itself contains the fence-opening token
```` ```mermaid ````; with such nested fences, recognizable syntax can
survive one pass. -/
theorem claim_C3_amended (content : String)
    (h : ∀ b ∈ MermaidProcessor.extract_diagrams content,
        occursIn mOpen10 b.toList = false) :
    MermaidProcessor.has_mermaid (MermaidProcessor.process content) = false := by
  unfold MermaidProcessor.process MermaidProcessor.has_mermaid
  show MermaidProcessor.hasMermaidL
    (MermaidProcessor.mpAux content.length content.toList) = false
  apply MermaidProcessor.no_match_after_mpAux
  · exact Nat.le_of_eq rfl
  · intro b hb
    have hmem : b.asString ∈ MermaidProcessor.extract_diagrams content := by
      unfold MermaidProcessor.extract_diagrams
      exact List.mem_map_of_mem _ hb
    have h2 := h (b.asString) hmem
    exact h2

/-- Witness for C3 (amended) at Scenario B's diagram input. -/
theorem claim_C3_witness :
    (∀ b ∈ MermaidProcessor.extract_diagrams "```mermaid\ngraph TD; A-->B;\n```",
        occursIn mOpen10 b.toList = false) ∧
    MermaidProcessor.has_mermaid
      (MermaidProcessor.process "```mermaid\ngraph TD; A-->B;\n```") = false :=
  ⟨by decide, claim_C3_amended _ (by decide)⟩

/-! ## Path model

File-system paths are modelled as plain strings with POSIX conventions,
matching the `pathlib` operations the source uses: `/`-join (an absolute
right operand replaces the left one), final-component extraction (`.name`),
leading-slash stripping (`.lstrip('/')`), stem and suffix replacement.
File existence is an oracle `String → Bool` supplied by the environment. -/

/-- Model of `Path.is_absolute`: the path starts with a slash. -/
def isAbsolutePath (p : String) : Bool := begins ['/'] p.toList

/-- Model of the pathlib slash-join operator: an absolute right operand wins. -/
def pathJoin (a b : String) : String :=
  if isAbsolutePath b then b else a ++ "/" ++ b

/-- Model of `Path(p).name`: the final path component. -/
def pathName (p : String) : String :=
  ((p.toList.reverse.takeWhile (fun c => c ≠ '/')).reverse).asString

/-- Model of Python lstrip with a slash: drop all leading slashes. -/
def lstripSlash (p : String) : String :=
  (p.toList.dropWhile (fun c => c = '/')).asString

/-- Model of `Path(p).stem`: the final component without its last extension. -/
def pathStem (p : String) : String :=
  let n := (pathName p).toList
  if '.' ∈ n then (n.reverse.dropWhile (fun c => c ≠ '.')).reverse.dropLast.asString
  else n.asString

/-- The directory part of `p` (`Path(p).parent`, as a plain string). -/
def parentDir (p : String) : String :=
  let d := (p.toList.reverse.dropWhile (fun c => c ≠ '/')).reverse
  if d = [] then "." else (d.dropLast).asString

/-- Model of with_suffix applied with the html extension. -/
def withSuffixHtml (p : String) : String :=
  let dir := (p.toList.reverse.dropWhile (fun c => c ≠ '/')).reverse.asString
  dir ++ pathStem p ++ ".html"

/-! ## ImageRewriter (`src/processors/image_processor.py`)

The pattern is `r'!\[([^\]]*)\]\(([^)]+)\)'`.  Both character classes
exclude their closing delimiter, so greedy matching is deterministic: the
alt text is the maximal run of non-`]` characters after `![`, which must
be followed by `](`, and the path is the maximal (nonempty) run of
non-`)` characters, which must be followed by `)`. -/

namespace ImageProcessor

/-- One regex-match attempt at the current position:
`some (alt, path, rest)` when the image pattern matches here.  The alt
text is the maximal run of non-`]` characters after `![` (which must be
followed by `](`); the path is the maximal run of non-`)` characters
(nonempty, followed by `)`).  Since `dropWhile` stops exactly at the
closing delimiter, requiring the remainder to be nonempty is the same as
requiring the delimiter. -/
def imgMatchAt (s : List Char) : Option (List Char × List Char × List Char) :=
  if begins "![".toList s then
    let alt := (s.drop 2).takeWhile (fun c => c ≠ ']')
    let t2 := (s.drop 2).dropWhile (fun c => c ≠ ']')
    if begins "](".toList t2 then
      let path := (t2.drop 2).takeWhile (fun c => c ≠ ')')
      let t4 := (t2.drop 2).dropWhile (fun c => c ≠ ')')
      if path ≠ [] ∧ t4 ≠ [] then some (alt, path, t4.drop 1) else none
    else none
  else none

/-- The literal text of a match: `match.group(0)`. -/
def imgOrig (alt path : List Char) : List Char :=
  '!' :: '[' :: (alt ++ ']' :: '(' :: (path ++ [')']))

/-- Online test of the source: the path starts with the http, https or data scheme marker. -/
def isOnline (path : List Char) : Bool :=
  begins "http://".toList path || begins "https://".toList path ||
    begins "data:".toList path

/-- The fixed list of conventional image subdirectories. -/
def common_dirs : List String := ["images", "img", "assets", "static", "media"]

/-- The first loop of `_find_image_file`: try each candidate path in turn;
the branch on `is_absolute` mirrors the source (both branches return the
path when it exists). -/
def attemptLoop (ex : String → Bool) : List String → Option String
  | [] => none
  | p :: ps =>
    if isAbsolutePath p && ex p then some p
    else if !isAbsolutePath p && ex p then some p
    else attemptLoop ex ps

/-- The second loop of `_find_image_file`: look for the bare filename in
each conventional subdirectory whose directory exists. -/
def commonLoop (ex : String → Bool) (base fname : String) : List String → Option String
  | [] => none
  | d :: ds =>
    let imgDir := pathJoin base d
    if ex imgDir then
      if ex (pathJoin imgDir fname) then some (pathJoin imgDir fname)
      else commonLoop ex base fname ds
    else commonLoop ex base fname ds

/-- Model of the private find-image-file method of `ImageProcessor`: resolve an image path against the
base directory, trying the four direct candidates and then the
conventional subdirectories.  `ex` is the file-system existence oracle
(`Path.exists`). -/
def find_image_file (ex : String → Bool) (image_path base : String) : Option String :=
  match attemptLoop ex
      [image_path, pathJoin base image_path, pathJoin base (pathName image_path),
        pathJoin base (lstripSlash image_path)] with
  | some p => some p
  | none => commonLoop ex base (pathName image_path) common_dirs

/-- The spec's resolution order, written from §4.1 step 3 of the spec:
the path as given, the path joined to the base, the filename joined to the
base, the slash-stripped path joined to the base, then the filename under
each conventional subdirectory; the first existing candidate wins. -/
def specResolutionOrder (image_path base : String) : List String :=
  [image_path, pathJoin base image_path, pathJoin base (pathName image_path),
    pathJoin base (lstripSlash image_path)] ++
    common_dirs.map (fun d => pathJoin (pathJoin base d) (pathName image_path))

/-- Per-image diagnostics (the operator-visible prints of the source). -/
inductive ImgDiag
  | embedded (file : String)
  | encodeFailed (file : String)
  | notFound (path : String)
deriving DecidableEq

/-- The environment of the image pass: the existence oracle and the
`_to_base64` outcome (`some` data URI, or `none` on a read/encode error,
in which case `_to_base64` prints a failure diagnostic and the reference
is left unchanged). -/
structure ImgEnv where
  ex : String → Bool
  b64 : String → Option String

/-- The body of `replace_image` for one match: the emitted text, the
count increment, and the diagnostics, mirroring the source's branches. -/
def replaceImage (env : ImgEnv) (base : String) (alt path : List Char) :
    List Char × Nat × List ImgDiag :=
  if isOnline path then (imgOrig alt path, 0, [])
  else
    match find_image_file env.ex path.asString base with
    | some f =>
      match env.b64 f with
      | some url =>
        ('!' :: '[' :: (alt ++ ']' :: '(' :: (url.toList ++ [')'])), 1,
          [ImgDiag.embedded f])
      | none => (imgOrig alt path, 0, [ImgDiag.encodeFailed f])
    | none => (imgOrig alt path, 0, [ImgDiag.notFound path.asString])

/-- The `re.sub` scan of `ImageProcessor.process`, fuelled to keep the
recursion structural. -/
def imgAux (env : ImgEnv) (base : String) : Nat → List Char →
    List Char × Nat × List ImgDiag
  | 0, s => (s, 0, [])
  | _ + 1, [] => ([], 0, [])
  | fuel + 1, c :: cs =>
    match imgMatchAt (c :: cs) with
    | some (alt, path, rest) =>
      let rep := replaceImage env base alt path
      let tail := imgAux env base fuel rest
      (rep.1 ++ tail.1, rep.2.1 + tail.2.1, rep.2.2 ++ tail.2.2)
    | none =>
      let tail := imgAux env base fuel cs
      (c :: tail.1, tail.2.1, tail.2.2)

/-- Model of `ImageProcessor.process` with its diagnostic side channel made
explicit: (rewritten text, image count, diagnostics). -/
def processD (env : ImgEnv) (base : String) (content : String) :
    String × Nat × List ImgDiag :=
  let r := imgAux env base content.length content.toList
  (r.1.asString, r.2.1, r.2.2)

/-- Model of `ImageProcessor.process`: returns (rewritten text, image count). -/
def process (env : ImgEnv) (base : String) (content : String) : String × Nat :=
  ((processD env base content).1, (processD env base content).2.1)

/-- The scan of `ImageProcessor.extract_images` (`re.findall`, keeping
group 2). -/
def exImgAux : Nat → List Char → List String
  | 0, _ => []
  | _ + 1, [] => []
  | fuel + 1, c :: cs =>
    match imgMatchAt (c :: cs) with
    | some (_, path, rest) => path.asString :: exImgAux fuel rest
    | none => exImgAux fuel cs

/-- Model of `ImageProcessor.extract_images`: the path of every match, in order. -/
def extract_images (content : String) : List String :=
  exImgAux content.length content.toList

/-- The (alt, path) capture groups of every match of the image pattern,
in order (the tuples `re.findall` traverses). -/
def patternCaptures : Nat → List Char → List (String × String)
  | 0, _ => []
  | _ + 1, [] => []
  | fuel + 1, c :: cs =>
    match imgMatchAt (c :: cs) with
    | some (alt, path, rest) => (alt.asString, path.asString) :: patternCaptures fuel rest
    | none => patternCaptures fuel cs

/-- All capture-group pairs of the image pattern over a text. -/
def pattern_matches (content : String) : List (String × String) :=
  patternCaptures content.length content.toList

end ImageProcessor

theorem dropWhile_ne_head_eq {t : List Char} {c : Char}
    (h : t.dropWhile (fun x => x ≠ c) ≠ []) :
    t.dropWhile (fun x => x ≠ c) =
      c :: (t.dropWhile (fun x => x ≠ c)).drop 1 := by
  induction t with
  | nil => exact absurd rfl h
  | cons a as ih =>
    by_cases hac : a = c
    · subst hac
      simp [List.dropWhile_cons]
    · rw [List.dropWhile_cons_of_pos (by simpa using hac)] at h ⊢
      exact ih h

namespace ImageProcessor

theorem imgMatchAt_eq_some {s alt path rest : List Char}
    (h : imgMatchAt s = some (alt, path, rest)) :
    s = imgOrig alt path ++ rest ∧ ']' ∉ alt ∧ ')' ∉ path ∧ path ≠ [] := by
  simp only [imgMatchAt] at h
  split at h
  · rename_i hbg
    set A := (s.drop 2).takeWhile (fun c => c ≠ ']') with hAdef
    set D := (s.drop 2).dropWhile (fun c => c ≠ ']') with hDdef
    split at h
    · rename_i hbg2
      set P := (D.drop 2).takeWhile (fun c => c ≠ ')') with hPdef
      set Q := (D.drop 2).dropWhile (fun c => c ≠ ')') with hQdef
      split at h
      · rename_i hcond
        simp only [Option.some.injEq, Prod.mk.injEq] at h
        obtain ⟨hA, hP, hR⟩ := h
        have hs2 : s = "![".toList ++ s.drop 2 := by
          have := begins_drop hbg
          simpa using this
        have ht : A ++ D = s.drop 2 := List.takeWhile_append_dropWhile _ _
        have ht2 : D = "](".toList ++ D.drop 2 := by
          have := begins_drop hbg2
          simpa using this
        have ht3 : P ++ Q = D.drop 2 := List.takeWhile_append_dropWhile _ _
        have ht4 : Q = ')' :: Q.drop 1 := dropWhile_ne_head_eq hcond.2
        refine ⟨?_, ?_, ?_, ?_⟩
        · rw [← hA, ← hP, ← hR, imgOrig]
          calc s = "![".toList ++ s.drop 2 := hs2
            _ = "![".toList ++ (A ++ D) := by rw [ht]
            _ = "![".toList ++ (A ++ ("](".toList ++ (P ++ Q))) := by
                rw [ht3, ← ht2]
            _ = "![".toList ++ (A ++ ("](".toList ++ (P ++ (')' :: Q.drop 1)))) := by
                rw [← ht4]
            _ = '!' :: '[' :: (A ++ ']' :: '(' :: (P ++ [')'])) ++ Q.drop 1 := by
                have e1 : "![".toList = ['!', '['] := rfl
                have e2 : "](".toList = [']', '('] := rfl
                rw [e1, e2]
                simp
        · intro hmem
          rw [← hA] at hmem
          have := List.mem_takeWhile_imp hmem
          simp at this
        · intro hmem
          rw [← hP] at hmem
          have := List.mem_takeWhile_imp hmem
          simp at this
        · rw [← hP]
          exact hcond.1
      · exact absurd h (by simp)
    · exact absurd h (by simp)
  · exact absurd h (by simp)

/-- Matches are at least five characters shorter than the text they head. -/
theorem imgMatchAt_rest_shorter {s alt path rest : List Char}
    (h : imgMatchAt s = some (alt, path, rest)) :
    rest.length + 5 ≤ s.length := by
  obtain ⟨hdec, -, -, hne⟩ := imgMatchAt_eq_some h
  have hlen := congrArg List.length hdec
  simp only [imgOrig, List.length_append, List.length_cons] at hlen
  have hp : path.length ≥ 1 := List.length_pos.mpr hne
  omega

end ImageProcessor

namespace ImageProcessor

theorem attemptLoop_eq_find (ex : String → Bool) :
    ∀ l : List String, attemptLoop ex l = l.find? ex := by
  intro l
  induction l with
  | nil => rfl
  | cons p ps ih =>
    cases hx : ex p with
    | true =>
      cases ha : isAbsolutePath p <;>
        simp [attemptLoop, hx, ha, List.find?_cons_of_pos]
    | false =>
      cases ha : isAbsolutePath p <;>
        simp [attemptLoop, hx, ha, ih, List.find?_cons_of_neg]

theorem commonLoop_eq_find (ex : String → Bool) (base fname : String) :
    ∀ ds : List String,
      (∀ d ∈ ds, ex (pathJoin (pathJoin base d) fname) = true →
        ex (pathJoin base d) = true) →
      commonLoop ex base fname ds =
        (ds.map (fun d => pathJoin (pathJoin base d) fname)).find? ex := by
  intro ds
  induction ds with
  | nil => intro _; rfl
  | cons d ds ih =>
    intro hcons
    have hrec := ih (fun d2 hd2 => hcons d2 (List.mem_cons_of_mem _ hd2))
    cases hf : ex (pathJoin (pathJoin base d) fname) with
    | true =>
      have hdir := hcons d (List.mem_cons_self _ _) hf
      simp [commonLoop, hdir, hf, List.find?_cons_of_pos]
    | false =>
      cases hdir : ex (pathJoin base d) <;>
        simp [commonLoop, hdir, hf, hrec, List.find?_cons_of_neg]

theorem imgAux_id_of_online (env : ImgEnv) (base : String) :
    ∀ (fuel : Nat) (s : List Char), s.length ≤ fuel →
      (∀ p ∈ exImgAux fuel s, isOnline p.toList = true) →
      imgAux env base fuel s = (s, 0, []) := by
  intro fuel
  induction fuel with
  | zero => intro s _ _; rfl
  | succ n ih =>
    intro s hlen honline
    cases s with
    | nil => rfl
    | cons c cs =>
      cases hm : imgMatchAt (c :: cs) with
      | some apr =>
        obtain ⟨alt, path, rest⟩ := apr
        have hdecomp := imgMatchAt_eq_some hm
        have hexeq : exImgAux (n + 1) (c :: cs) =
            path.asString :: exImgAux n rest := by
          simp only [exImgAux, hm]
        have hon : isOnline path = true := by
          have := honline path.asString (by rw [hexeq]; exact List.mem_cons_self _ _)
          exact this
        have hrestlen : rest.length ≤ n := by
          have := imgMatchAt_rest_shorter hm
          simp only [List.length_cons] at hlen this
          omega
        have hrest : ∀ p ∈ exImgAux n rest, isOnline p.toList = true := by
          intro p hp
          exact honline p (by rw [hexeq]; exact List.mem_cons_of_mem _ hp)
        have htail := ih rest hrestlen hrest
        simp only [imgAux, hm, htail, replaceImage, hon, if_true]
        simp [← hdecomp.1]
      | none =>
        have hexeq : exImgAux (n + 1) (c :: cs) = exImgAux n cs := by
          simp only [exImgAux, hm]
        have hlencs : cs.length ≤ n := by
          simp only [List.length_cons] at hlen
          omega
        have htail := ih cs hlencs (fun p hp => honline p (by rw [hexeq]; exact hp))
        simp only [imgAux, hm, htail]

theorem imgAux_id_of_no_match (env : ImgEnv) (base : String) :
    ∀ (fuel : Nat) (s : List Char), exImgAux fuel s = [] →
      imgAux env base fuel s = (s, 0, []) := by
  intro fuel
  induction fuel with
  | zero => intro s _; rfl
  | succ n ih =>
    intro s hno
    cases s with
    | nil => rfl
    | cons c cs =>
      cases hm : imgMatchAt (c :: cs) with
      | some apr =>
        exfalso
        obtain ⟨alt, path, rest⟩ := apr
        rw [show exImgAux (n + 1) (c :: cs) = path.asString :: exImgAux n rest by
          simp only [exImgAux, hm]] at hno
        exact List.cons_ne_nil _ _ hno
      | none =>
        rw [show exImgAux (n + 1) (c :: cs) = exImgAux n cs by
          simp only [exImgAux, hm]] at hno
        simp only [imgAux, hm, ih cs hno]

theorem patternCaptures_groups :
    ∀ (fuel : Nat) (s : List Char) (pr : String × String),
      pr ∈ patternCaptures fuel s →
      ']' ∉ pr.1.toList ∧ ')' ∉ pr.2.toList := by
  intro fuel
  induction fuel with
  | zero => intro s pr hpr; exact absurd hpr (by simp [patternCaptures])
  | succ n ih =>
    intro s pr hpr
    cases s with
    | nil => exact absurd hpr (by simp [patternCaptures])
    | cons c cs =>
      cases hm : imgMatchAt (c :: cs) with
      | some apr =>
        obtain ⟨alt, path, rest⟩ := apr
        rw [show patternCaptures (n + 1) (c :: cs) =
            (alt.asString, path.asString) :: patternCaptures n rest by
          simp only [patternCaptures, hm]] at hpr
        rcases List.mem_cons.mp hpr with heq | hmem
        · obtain ⟨-, hal, hpa, -⟩ := imgMatchAt_eq_some hm
          rw [heq]
          exact ⟨hal, hpa⟩
        · exact ih rest pr hmem
      | none =>
        rw [show patternCaptures (n + 1) (c :: cs) = patternCaptures n cs by
          simp only [patternCaptures, hm]] at hpr
        exact ih cs pr hpr

end ImageProcessor

/-- C5: for a local image reference, `_find_image_file` tries, in order:
the path as given, the path joined to the base directory, the base joined
with the final filename component, the slash-stripped path joined to the
base, then the filename inside each of `images`, `img`, `assets`,
`static`, `media` under the base; the first candidate the oracle reports
as existing wins.  The hypothesis is file-system consistency: a file
existing inside a conventional subdirectory means that subdirectory
exists (the source checks the directory before the file). -/
theorem claim_C5 (ex : String → Bool) (image_path base : String)
    (hfs : ∀ d ∈ ImageProcessor.common_dirs,
        ex (pathJoin (pathJoin base d) (pathName image_path)) = true →
        ex (pathJoin base d) = true) :
    ImageProcessor.find_image_file ex image_path base =
      (ImageProcessor.specResolutionOrder image_path base).find? ex := by
  unfold ImageProcessor.find_image_file ImageProcessor.specResolutionOrder
  rw [List.find?_append, ImageProcessor.attemptLoop_eq_find,
    ImageProcessor.commonLoop_eq_find ex base (pathName image_path)
      ImageProcessor.common_dirs hfs]
  cases ([image_path, pathJoin base image_path, pathJoin base (pathName image_path),
      pathJoin base (lstripSlash image_path)].find? ex) with
  | none => simp
  | some p => simp

/-- The existence oracle of the C5 witness: exactly
`/b/images/f.png` and its directory exist. -/
def exC5 : String → Bool := fun s => s = "/b/images/f.png" || s = "/b/images"

/-- Witness for C5: `f.png` is found inside the conventional `images`
subdirectory of `/b`, in spec resolution order. -/
theorem claim_C5_witness :
    (∀ d ∈ ImageProcessor.common_dirs,
        exC5 (pathJoin (pathJoin "/b" d) (pathName "f.png")) = true →
        exC5 (pathJoin "/b" d) = true) ∧
    ImageProcessor.find_image_file exC5 "f.png" "/b" =
      (ImageProcessor.specResolutionOrder "f.png" "/b").find? exC5 :=
  ⟨by decide, claim_C5 exC5 "f.png" "/b" (by decide)⟩

/-- C6: when every image reference's path starts with `http://`,
`https://` or `data:`, `ImageProcessor.process` returns the text
unchanged with an embedded-image count of 0, for every environment and
base directory. -/
theorem claim_C6 (env : ImageProcessor.ImgEnv) (base content : String)
    (h : ∀ p ∈ ImageProcessor.extract_images content,
        ImageProcessor.isOnline p.toList = true) :
    ImageProcessor.process env base content = (content, 0) := by
  unfold ImageProcessor.process ImageProcessor.processD
  rw [ImageProcessor.imgAux_id_of_online env base content.length content.toList
    (Nat.le_of_eq rfl) h]
  rfl

/-- Witness for C6 on a text with one network and one data reference. -/
theorem claim_C6_witness :
    (∀ p ∈ ImageProcessor.extract_images
        "![a](http://x/y.png) ![b](data:image/png;base64,Zm9v)",
      ImageProcessor.isOnline p.toList = true) ∧
    ImageProcessor.process ⟨fun _ => false, fun _ => none⟩ "/b"
        "![a](http://x/y.png) ![b](data:image/png;base64,Zm9v)" =
      ("![a](http://x/y.png) ![b](data:image/png;base64,Zm9v)", 0) :=
  ⟨by decide, claim_C6 ⟨fun _ => false, fun _ => none⟩ "/b" _ (by decide)⟩

/-- C10 (amended): every match the image pattern produces has an alt text
free of `]` and a path free of `)` (the character classes exclude their
delimiters).  Hence a reference whose alt text contains `]` is never
matched as written, while a reference whose path contains `)` can still
be matched — but only up to the first `)`, with the truncated path, so it
may be rewritten, counted and diagnosed (see the counterexample). -/
theorem claim_C10_amended (content : String) :
    ∀ pr ∈ ImageProcessor.pattern_matches content,
      ']' ∉ pr.1.toList ∧ ')' ∉ pr.2.toList := by
  intro pr hpr
  exact ImageProcessor.patternCaptures_groups content.length content.toList pr hpr

/-- Witness for C10 (amended): the single match of `"![a](b)"`. -/
theorem claim_C10_witness :
    ("a", "b") ∈ ImageProcessor.pattern_matches "![a](b)" ∧
      ']' ∉ "a".toList ∧ ')' ∉ "b".toList :=
  ⟨by decide, claim_C10_amended "![a](b)" ("a", "b") (by decide)⟩

/-- The environment of the C10 counterexample: the file `/b/a` exists and
encodes successfully. -/
def imgEnvC10 : ImageProcessor.ImgEnv :=
  ⟨fun s => s = "/b/a", fun _ => some "data:image/png;base64,AAAA"⟩

/-- C10 (counterexample): in `"![x](a).png)"` the written reference's
path part `a).png` contains `)`; the claim says such a reference is not
matched at all, is left byte-for-byte unchanged, produces no diagnostic
and is never counted.  In fact the pattern matches with the truncated
path `a`, which resolves to `/b/a` here: the text is rewritten, the count
is 1, and an embedded-image diagnostic is produced. -/
theorem claim_C10_counterexample :
    ImageProcessor.processD imgEnvC10 "/b" "![x](a).png)" =
      ("![x](data:image/png;base64,AAAA).png)", 1,
        [ImageProcessor.ImgDiag.embedded "/b/a"]) := by
  decide

/-- A text with no Mermaid match is returned unchanged by the rewrite
scan. -/
theorem MermaidProcessor.mpAux_id_of_no_match :
    ∀ (fuel : Nat) (s : List Char), MermaidProcessor.hasMermaidL s = false →
      MermaidProcessor.mpAux fuel s = s := by
  intro fuel
  induction fuel with
  | zero => intro s _; rfl
  | succ n ih =>
    intro s hs
    cases s with
    | nil => rfl
    | cons c cs =>
      have h1 : (mStep (c :: cs)).isSome = false ∧
          MermaidProcessor.hasMermaidL cs = false := by
        have := hs
        simp only [MermaidProcessor.hasMermaidL, Bool.or_eq_false_iff] at this
        exact this
      have hnone : mStep (c :: cs) = none := by
        cases hx : mStep (c :: cs) with
        | none => rfl
        | some ab => rw [hx] at h1; simp at h1
      simp only [MermaidProcessor.mpAux, hnone, ih cs h1.2]

/-- C9: the two rewriters act only on Markdown image / fence syntax: any
text containing no image-pattern match and no fenced Mermaid block is
returned unchanged (with count 0) by `ImageProcessor.process` and
unchanged by `MermaidProcessor.process`.  The transform stage itself is
the external `markdown` library (not part of this repository); per the
spec, its HTML output contains no such Markdown syntax, which is taken
here as the hypothesis. -/
theorem claim_C9 (env : ImageProcessor.ImgEnv) (base html : String)
    (himg : ImageProcessor.extract_images html = [])
    (hmer : MermaidProcessor.has_mermaid html = false) :
    ImageProcessor.process env base html = (html, 0) ∧
      MermaidProcessor.process html = html := by
  constructor
  · unfold ImageProcessor.process ImageProcessor.processD
    rw [ImageProcessor.imgAux_id_of_no_match env base html.length html.toList himg]
    rfl
  · unfold MermaidProcessor.process
    rw [MermaidProcessor.mpAux_id_of_no_match html.length html.toList hmer]
    rfl

/-- Witness for C9 on a typical HTML fragment. -/
theorem claim_C9_witness :
    (ImageProcessor.extract_images "<p>hello <code>x](y)</code></p>" = [] ∧
      MermaidProcessor.has_mermaid "<p>hello <code>x](y)</code></p>" = false) ∧
    ImageProcessor.process ⟨fun _ => false, fun _ => none⟩ "/b"
        "<p>hello <code>x](y)</code></p>" =
      ("<p>hello <code>x](y)</code></p>", 0) ∧
      MermaidProcessor.process "<p>hello <code>x](y)</code></p>" =
        "<p>hello <code>x](y)</code></p>" :=
  ⟨⟨by decide, by decide⟩,
    claim_C9 ⟨fun _ => false, fun _ => none⟩ "/b" _ (by decide) (by decide)⟩

/-! ## Themes (`src/themes/`)

The three concrete themes differ only in their CSS/script payloads, which
the spec treats as opaque assets; the payload texts are abbreviated here
(no claim depends on their contents), while the selection logic, the
document template of `BaseTheme.render` and the conditional inclusion of
the Mermaid bootstrap in `get_scripts` are modelled faithfully. -/

/-- The closed set of theme classes (`DefaultTheme`, `MinimalTheme`,
`ProfessionalTheme`). -/
inductive ThemeKind
  | defaultTheme
  | minimalTheme
  | professionalTheme
deriving DecidableEq

/-- The lookup table of `get_theme`, mirroring the themes dictionary of the source. -/
def themesTable : List (String × ThemeKind) :=
  [("default", ThemeKind.defaultTheme), ("minimal", ThemeKind.minimalTheme),
    ("professional", ThemeKind.professionalTheme)]

/-- Model of `get_theme`: dictionary lookup with `DefaultTheme` as the fallback for
unknown identifiers (`themes.get(name, DefaultTheme)`). -/
def get_theme (name : String) : ThemeKind :=
  (themesTable.lookup name).getD ThemeKind.defaultTheme

namespace BaseTheme

/-- Per-theme CSS payload (`get_styles`; opaque asset, text elided). -/
def get_styles : ThemeKind → String
  | ThemeKind.defaultTheme =>
      "/* default theme: gradient sidebar layout (CSS payload elided) */"
  | ThemeKind.minimalTheme =>
      "/* minimal theme: plain reading layout (CSS payload elided) */"
  | ThemeKind.professionalTheme =>
      "/* professional theme: print-oriented serif layout (CSS payload elided) */"

/-- Per-theme base JavaScript payload (opaque asset, text elided). -/
def base_scripts : ThemeKind → String
  | ThemeKind.defaultTheme =>
      "// default theme scripts: smooth scroll, code copy, image zoom (payload elided)"
  | ThemeKind.minimalTheme =>
      "// minimal theme scripts (payload elided)"
  | ThemeKind.professionalTheme =>
      "// professional theme scripts: numbering, print helpers (payload elided)"

/-- Model of `get_scripts`: every theme appends the Mermaid bootstrap to its base
scripts exactly when its `has_mermaid` argument is true
(`if has_mermaid: scripts += processor.get_mermaid_script()`). -/
def get_scripts (k : ThemeKind) (has_mermaid : Bool) : String :=
  base_scripts k ++
    (if has_mermaid then MermaidProcessor.get_mermaid_script else "")

/-- Model of the header section builder of `BaseTheme`. -/
def create_header (title : String) (image_count : Nat) : String :=
  "\n        <div class=\"header\">\n            <h1>" ++ title ++
    "</h1>\n            <p class=\"meta\">包含 " ++ toString image_count ++
    " 张图片</p>\n        </div>\n        "

/-- Model of the footer section builder of `BaseTheme`. -/
def create_footer : String :=
  "\n        <div class=\"footer\">\n            <p>由 Markdown to HTML Converter 生成</p>\n        </div>\n        "

/-- Model of the TOC section builder of `BaseTheme`. -/
def create_toc_section (toc_html : String) : String :=
  if toc_html = "" then ""
  else
    "\n        <div class=\"toc-sidebar\" id=\"toc-sidebar\">\n            <h2>目录</h2>\n            " ++
      toc_html ++ "\n        </div>\n        "

/-- The TOC slot of the template:
`toc_section = self._create_toc_section(toc_html) if toc_html else ""`. -/
def toc_block (toc_html : String) : String :=
  if toc_html = "" then "" else create_toc_section toc_html

/-- Model of `BaseTheme.render`: the full HTML5 document (the `config` argument of
the source is unused by `render` and omitted). -/
def render (k : ThemeKind) (body_html toc_html title : String)
    (image_count : Nat) (has_mermaid : Bool) : String :=
  "<!DOCTYPE html>\n<html lang=\"zh-CN\">\n<head>\n    <meta charset=\"UTF-8\">\n    <meta name=\"viewport\" content=\"width=device-width, initial-scale=1.0\">\n    <title>" ++
    title ++ "</title>\n    <style>\n        " ++ get_styles k ++
    "\n    </style>\n</head>\n<body>\n    <div class=\"container\">\n        " ++
    create_header title image_count ++ "\n        " ++ toc_block toc_html ++
    "\n        <div class=\"content\" id=\"main-content\">\n            " ++
    body_html ++ "\n        </div>\n        " ++ create_footer ++
    "\n    </div>\n    <script>\n        " ++ get_scripts k has_mermaid ++
    "\n    </script>\n</body>\n</html>"

end BaseTheme

theorem get_theme_cases (name : String) :
    get_theme name = ThemeKind.defaultTheme ∨
      get_theme name = ThemeKind.minimalTheme ∨
      get_theme name = ThemeKind.professionalTheme := by
  by_cases h1 : name = "default"
  · subst h1; left; rfl
  by_cases h2 : name = "minimal"
  · subst h2; right; left; rfl
  by_cases h3 : name = "professional"
  · subst h3; right; right; rfl
  left
  simp [get_theme, themesTable, List.lookup, beq_eq_false_iff_ne.mpr h1,
    beq_eq_false_iff_ne.mpr h2, beq_eq_false_iff_ne.mpr h3]

/-! ## Converter (`src/core/converter.py`)

The fallible pipeline stages that the source's `try/except` guards —
reading the source text, the third-party Markdown transform, writing the
output — are oracles returning `Except String`; the top-level handler
becomes the case analysis of `HTMLConverter.convert` on the pipeline's
outcome.  The write events are returned explicitly to state claims about
what is (not) written.  Wall-clock `duration` is not modelled. -/

/-- Model of `ConversionResult` (the `duration` field, wall-clock timing, is not
modelled). -/
structure ConversionResult where
  success : Bool
  output_path : String
  file_size : Nat
  image_count : Nat
  error_message : Option String := none
deriving DecidableEq

/-- The stage oracles of one conversion: source existence, `read_text`,
the `markdown` library (body and TOC fragments), its `Meta` title, and
`write_text` (returning the written byte size, `stat().st_size`). -/
structure ConvEnv where
  fileEx : String → Bool
  read : String → Except String String
  md : String → Except String (String × String)
  mdTitle : String → Option String
  write : String → String → Except String Nat
  img : ImageProcessor.ImgEnv

namespace HTMLConverter

/-- The two optional rewrite stages: image embedding (when
`embed_images`) then diagram rewriting (when `process_mermaid`); returns
the rewritten text and the image count. -/
def stage_content (env : ConvEnv) (source_path md_content : String)
    (embed_images process_mermaid : Bool) : String × Nat :=
  let pimg :=
    if embed_images then
      ImageProcessor.processD env.img (parentDir source_path) md_content
    else (md_content, 0, [])
  (if process_mermaid then MermaidProcessor.process pimg.1 else pimg.1, pimg.2.1)

/-- One run of the `try` body of `HTMLConverter.convert`: either the
successful `(output path, written size, image count)` or the first
raised/returned error; paired with the list of write events. -/
def runPipeline (env : ConvEnv) (source_path : String)
    (output_path : Option String) (theme : String)
    (embed_images process_mermaid : Bool) :
    Except String (String × Nat × Nat) × List (String × String) :=
  if env.fileEx source_path then
    match env.read source_path with
    | Except.error e => (Except.error e, [])
    | Except.ok md_content =>
      let sc := stage_content env source_path md_content embed_images process_mermaid
      match env.md sc.1 with
      | Except.error e => (Except.error e, [])
      | Except.ok bt =>
        let title := (env.mdTitle sc.1).getD (pathStem source_path)
        let full_html :=
          BaseTheme.render (get_theme theme) bt.1 bt.2 title sc.2 process_mermaid
        let out := output_path.getD (withSuffixHtml source_path)
        match env.write out full_html with
        | Except.error e => (Except.error e, [(out, full_html)])
        | Except.ok n => (Except.ok (out, n, sc.2), [(out, full_html)])
  else (Except.error ("文件不存在: " ++ source_path), [])

/-- Model of `HTMLConverter.convert`: the pipeline's outcome folded into a
`ConversionResult`; an error — the not-found early return or any stage
exception — becomes a failed result carrying the message. -/
def convert (env : ConvEnv) (source_path : String) (output_path : Option String)
    (theme : String) (embed_images process_mermaid : Bool) : ConversionResult :=
  match (runPipeline env source_path output_path theme
      embed_images process_mermaid).1 with
  | Except.ok r => ⟨true, r.1, r.2.1, r.2.2, none⟩
  | Except.error e =>
    ⟨false, output_path.getD (withSuffixHtml source_path), 0, 0, some e⟩

/-- The write events of one conversion. -/
def convertWrites (env : ConvEnv) (source_path : String)
    (output_path : Option String) (theme : String)
    (embed_images process_mermaid : Bool) : List (String × String) :=
  (runPipeline env source_path output_path theme embed_images process_mermaid).2

/-- Model of `HTMLConverter.convert_batch`: one `convert` per source, in order,
with the destination derived from `output_dir` when given. -/
def convert_batch (env : ConvEnv) (source_paths : List String)
    (output_dir : Option String) (theme : String)
    (embed_images process_mermaid : Bool) : List ConversionResult :=
  source_paths.map fun sp =>
    convert env sp (output_dir.map fun d => pathJoin d (pathStem sp ++ ".html"))
      theme embed_images process_mermaid

end HTMLConverter

/-- C8: theme selection for any identifier outside the recognized set
silently resolves to the default theme, so the document produced (and in
particular its CSS and script payload) is identical to the one produced
for `"default"`. -/
theorem claim_C8 (name : String) (h1 : name ≠ "default")
    (h2 : name ≠ "minimal") (h3 : name ≠ "professional") :
    get_theme name = get_theme "default" ∧
    ∀ body toc title ic hm,
      BaseTheme.render (get_theme name) body toc title ic hm =
        BaseTheme.render (get_theme "default") body toc title ic hm := by
  have heq : get_theme name = get_theme "default" := by
    simp [get_theme, themesTable, List.lookup, beq_eq_false_iff_ne.mpr h1,
      beq_eq_false_iff_ne.mpr h2, beq_eq_false_iff_ne.mpr h3]
  exact ⟨heq, fun body toc title ic hm => by rw [heq]⟩

/-- Witness for C8 at the identifier `"nonexistent"`. -/
theorem claim_C8_witness :
    get_theme "nonexistent" = get_theme "default" ∧
    BaseTheme.render (get_theme "nonexistent") "<p>x</p>" "" "t" 0 false =
      BaseTheme.render (get_theme "default") "<p>x</p>" "" "t" 0 false :=
  ⟨(claim_C8 "nonexistent" (by decide) (by decide) (by decide)).1,
    (claim_C8 "nonexistent" (by decide) (by decide) (by decide)).2
      "<p>x</p>" "" "t" 0 false⟩

/-- C7: converting a source that does not exist yields a failed result
whose message mentions the source location, and nothing is written (no
write event occurs, hence no partial output). -/
theorem claim_C7 (env : ConvEnv) (source_path : String)
    (output_path : Option String) (theme : String) (ei pm : Bool)
    (h : env.fileEx source_path = false) :
    (HTMLConverter.convert env source_path output_path theme ei pm).success
        = false ∧
    (HTMLConverter.convert env source_path output_path theme ei pm).error_message
        = some ("文件不存在: " ++ source_path) ∧
    occursIn source_path.toList
        ("文件不存在: " ++ source_path).toList = true ∧
    HTMLConverter.convertWrites env source_path output_path theme ei pm = [] := by
  refine ⟨?_, ?_, ?_, ?_⟩
  · simp [HTMLConverter.convert, HTMLConverter.runPipeline, h]
  · simp [HTMLConverter.convert, HTMLConverter.runPipeline, h]
  · refine (occursIn_iff _ _).mpr ⟨"文件不存在: ".toList, [], ?_⟩
    show ("文件不存在: " ++ source_path).data = _
    rw [String.data_append]
    simp
  · simp [HTMLConverter.convertWrites, HTMLConverter.runPipeline, h]

/-- The environment of the C7 witness: no file exists. -/
def envC7 : ConvEnv :=
  { fileEx := fun _ => false
    read := fun _ => Except.error "unreadable"
    md := fun _ => Except.error "untransformed"
    mdTitle := fun _ => none
    write := fun _ _ => Except.error "unwritable"
    img := ⟨fun _ => false, fun _ => none⟩ }

/-- Witness for C7 at a concrete missing source. -/
theorem claim_C7_witness :
    envC7.fileEx "docs/missing.md" = false ∧
    (HTMLConverter.convert envC7 "docs/missing.md" none "default" true true).success
        = false ∧
    HTMLConverter.convertWrites envC7 "docs/missing.md" none "default" true true
        = [] :=
  ⟨rfl,
    (claim_C7 envC7 "docs/missing.md" none "default" true true rfl).1,
    (claim_C7 envC7 "docs/missing.md" none "default" true true rfl).2.2.2⟩

/-- C1: `convert` is total — every pipeline outcome, including any stage
error, is folded into a `ConversionResult`; an error becomes a failed
result carrying the error's message and nothing ever propagates out.
`convert_batch` returns exactly one result per request, in request order,
and the i-th result depends only on the i-th request, so one request's
failure never aborts or affects the others. -/
theorem claim_C1 (env : ConvEnv) (source_paths : List String)
    (output_dir : Option String) (theme : String) (ei pm : Bool) :
    (HTMLConverter.convert_batch env source_paths output_dir theme ei pm).length
        = source_paths.length ∧
    (∀ i (h : i < source_paths.length),
      (HTMLConverter.convert_batch env source_paths output_dir theme ei pm).get
          ⟨i, by simpa [HTMLConverter.convert_batch] using h⟩ =
        HTMLConverter.convert env (source_paths.get ⟨i, h⟩)
          (output_dir.map fun d =>
            pathJoin d (pathStem (source_paths.get ⟨i, h⟩) ++ ".html"))
          theme ei pm) ∧
    (∀ sp op e,
      (HTMLConverter.runPipeline env sp op theme ei pm).1 = Except.error e →
        HTMLConverter.convert env sp op theme ei pm =
          ⟨false, op.getD (withSuffixHtml sp), 0, 0, some e⟩) := by
  refine ⟨by simp [HTMLConverter.convert_batch], ?_, ?_⟩
  · intro i h
    simp [HTMLConverter.convert_batch, List.get_eq_getElem]
  · intro sp op e he
    unfold HTMLConverter.convert
    rw [he]

/-- The Scenario-E environment of the C1 witness: three readable sources;
the transform stage raises exactly on the second source's content. -/
def envC1 : ConvEnv :=
  { fileEx := fun _ => true
    read := fun p => if p = "b.md" then Except.ok "B" else Except.ok "A"
    md := fun s =>
      if s = "B" then Except.error "boom"
      else Except.ok ("<p>" ++ s ++ "</p>", "")
    mdTitle := fun _ => none
    write := fun _ doc => Except.ok doc.length
    img := ⟨fun _ => false, fun _ => none⟩ }

/-- Witness for C1 at Scenario E: three files, the second failing inside
the transform stage; three results come back in order, with exactly the
second failed and carrying the raised message. -/
theorem claim_C1_witness :
    (HTMLConverter.convert_batch envC1 ["a.md", "b.md", "c.md"] none "default"
        true true).length = 3 ∧
    HTMLConverter.convert envC1 "b.md" none "default" true true =
      ⟨false, "b.html", 0, 0, some "boom"⟩ ∧
    (HTMLConverter.convert_batch envC1 ["a.md", "b.md", "c.md"] none "default"
        true true).map ConversionResult.success = [true, false, true] := by
  refine ⟨?_, ?_, ?_⟩
  · exact (claim_C1 envC1 ["a.md", "b.md", "c.md"] none "default" true true).1
  · exact (claim_C1 envC1 ["a.md", "b.md", "c.md"] none "default" true true).2.2
      "b.md" none "boom" rfl
  · decide

theorem begins_append_of {pat a : List Char} (r : List Char)
    (h : begins pat a = true) : begins pat (a ++ r) = true := by
  obtain ⟨x, hx⟩ := (begins_iff pat a).mp h
  exact (begins_iff pat (a ++ r)).mpr ⟨x ++ r, by simp [hx]⟩

theorem occursIn_refl (pat : List Char) : occursIn pat pat = true :=
  (occursIn_iff pat pat).mpr ⟨[], [], by simp⟩

/-- C2 (amended): every document the pipeline writes is rendered with the
`process_mermaid` toggle passed as the theme's `has_mermaid` argument —
the converter forwards the toggle, not the presence query — and for every
theme the script block contains the diagram bootstrap exactly when that
flag is true. -/
theorem claim_C2_amended (env : ConvEnv) (source_path : String)
    (output_path : Option String) (theme : String) (ei pm : Bool)
    (out doc : String)
    (h : (HTMLConverter.runPipeline env source_path output_path theme ei pm).2 =
      [(out, doc)]) :
    (∃ body toc title ic,
      doc = BaseTheme.render (get_theme theme) body toc title ic pm) ∧
    occursIn MermaidProcessor.get_mermaid_script.toList
        (BaseTheme.get_scripts (get_theme theme) pm).toList = pm := by
  constructor
  · unfold HTMLConverter.runPipeline at h
    split at h
    · cases hr : env.read source_path with
      | error e => simp only [hr] at h; simp at h
      | ok md_content =>
        simp only [hr] at h
        cases hm : env.md
            (HTMLConverter.stage_content env source_path md_content ei pm).1 with
        | error e => simp only [hm] at h; simp at h
        | ok bt =>
          simp only [hm] at h
          split at h <;>
          · simp only [List.cons.injEq, Prod.mk.injEq, and_true] at h
            exact ⟨bt.1, bt.2, _, _, h.2.symm⟩
    · simp at h
  · cases pm with
    | true =>
      show occursIn MermaidProcessor.get_mermaid_script.toList
        ((BaseTheme.base_scripts (get_theme theme) ++
          MermaidProcessor.get_mermaid_script).data) = true
      rw [String.data_append]
      exact occursIn_right (occursIn_refl _)
    | false =>
      rcases get_theme_cases theme with hk | hk | hk <;> rw [hk] <;> decide

/-- The environment of the C2 counterexample and witness: the source text
is `"hello"` (no diagram block anywhere) and every stage succeeds. -/
def envC2 : ConvEnv :=
  { fileEx := fun _ => true
    read := fun _ => Except.ok "hello"
    md := fun s => Except.ok ("<p>" ++ s ++ "</p>", "")
    mdTitle := fun _ => none
    write := fun _ doc => Except.ok doc.length
    img := ⟨fun _ => false, fun _ => none⟩ }

/-- C2 (counterexample): converting a document with no diagram block and
default toggles writes a document whose script block contains the diagram
bootstrap, although the presence query on the rewritten text reports
false — inclusion is decided by the `process_mermaid` toggle, not by
`has_mermaid`. -/
theorem claim_C2_counterexample :
    MermaidProcessor.has_mermaid (MermaidProcessor.process "hello") = false ∧
    (HTMLConverter.runPipeline envC2 "a.md" none "default" true true).2 =
      [("a.html",
        BaseTheme.render ThemeKind.defaultTheme "<p>hello</p>" "" "a" 0 true)] ∧
    occursIn MermaidProcessor.get_mermaid_script.toList
        (BaseTheme.render ThemeKind.defaultTheme "<p>hello</p>" "" "a" 0 true).toList
      = true := by
  refine ⟨by decide, rfl, ?_⟩
  have hscr : occursIn MermaidProcessor.get_mermaid_script.toList
      ((BaseTheme.get_scripts ThemeKind.defaultTheme true).data) = true := by
    show occursIn MermaidProcessor.get_mermaid_script.toList
      ((BaseTheme.base_scripts ThemeKind.defaultTheme ++
        MermaidProcessor.get_mermaid_script).data) = true
    rw [String.data_append]
    exact occursIn_right (occursIn_refl _)
  show occursIn MermaidProcessor.get_mermaid_script.toList
    (BaseTheme.render ThemeKind.defaultTheme "<p>hello</p>" "" "a" 0 true).data = true
  simp only [BaseTheme.render, String.data_append]
  exact occursIn_left (occursIn_right hscr)

/-- Witness for C2 (amended) with the toggle off: the written document is
rendered with `has_mermaid := false` and the script block omits the
bootstrap. -/
theorem claim_C2_witness :
    ((HTMLConverter.runPipeline envC2 "a.md" none "default" true false).2 =
      [("a.html",
        BaseTheme.render (get_theme "default") "<p>hello</p>" "" "a" 0 false)]) ∧
    ((∃ body toc title ic,
        BaseTheme.render (get_theme "default") "<p>hello</p>" "" "a" 0 false =
          BaseTheme.render (get_theme "default") body toc title ic false) ∧
      occursIn MermaidProcessor.get_mermaid_script.toList
          (BaseTheme.get_scripts (get_theme "default") false).toList = false) :=
  ⟨rfl,
    claim_C2_amended envC2 "a.md" none "default" true false "a.html"
      (BaseTheme.render (get_theme "default") "<p>hello</p>" "" "a" 0 false) rfl⟩

/-- C4: converting the empty Markdown document (with the transform stage
— the external `markdown` library, modelled per the spec — yielding an
empty body fragment and an empty TOC fragment) writes exactly the
document rendered with empty content and empty TOC; the TOC slot of the
template renders to the empty string for an empty fragment and contains
the TOC markup whenever the fragment is nonempty; and the document starts
as an HTML5 document. -/
theorem claim_C4 (env : ConvEnv) (source_path : String)
    (output_path : Option String) (theme : String) (ei pm : Bool)
    (hfe : env.fileEx source_path = true)
    (hread : env.read source_path = Except.ok "")
    (hmd : env.md "" = Except.ok ("", ""))
    (htitle : env.mdTitle "" = none) :
    (HTMLConverter.runPipeline env source_path output_path theme ei pm).2 =
      [(output_path.getD (withSuffixHtml source_path),
        BaseTheme.render (get_theme theme) "" "" (pathStem source_path) 0 pm)] ∧
    BaseTheme.toc_block "" = "" ∧
    (∀ toc : String, toc ≠ "" →
      occursIn "toc-sidebar".toList (BaseTheme.toc_block toc).toList = true) ∧
    begins "<!DOCTYPE html>".toList
      (BaseTheme.render (get_theme theme) "" "" (pathStem source_path) 0 pm).toList
      = true := by
  have hsc : HTMLConverter.stage_content env source_path "" ei pm = ("", 0) := by
    cases ei <;> cases pm <;> rfl
  refine ⟨?_, rfl, ?_, ?_⟩
  · simp only [HTMLConverter.runPipeline, hfe, if_true, hread]
    rw [show (HTMLConverter.stage_content env source_path "" ei pm).1 = "" by
        rw [hsc],
      show (HTMLConverter.stage_content env source_path "" ei pm).2 = 0 by
        rw [hsc]]
    simp only [hmd, htitle, Option.getD_none]
    cases hw : env.write (output_path.getD (withSuffixHtml source_path))
        (BaseTheme.render (get_theme theme) "" "" (pathStem source_path) 0 pm) <;>
      simp [hw]
  · intro toc htoc
    simp only [BaseTheme.toc_block, if_neg htoc, BaseTheme.create_toc_section]
    have hrw :
        (("\n        <div class=\"toc-sidebar\" id=\"toc-sidebar\">\n            <h2>目录</h2>\n            " ++
            toc ++ "\n        </div>\n        " : String)).toList =
          ("\n        <div class=\"toc-sidebar\" id=\"toc-sidebar\">\n            <h2>目录</h2>\n            ".toList ++
            toc.toList) ++ "\n        </div>\n        ".toList := rfl
    rw [hrw]
    exact occursIn_left (occursIn_left (by decide))
  · show begins "<!DOCTYPE html>".toList
      (BaseTheme.render (get_theme theme) "" "" (pathStem source_path) 0 pm).data
      = true
    simp only [BaseTheme.render, String.data_append]
    repeat apply begins_append_of
    decide

/-- The environment of the C4 witness: an empty readable source, every
stage succeeding. -/
def envC4 : ConvEnv :=
  { fileEx := fun _ => true
    read := fun _ => Except.ok ""
    md := fun _ => Except.ok ("", "")
    mdTitle := fun _ => none
    write := fun _ doc => Except.ok doc.length
    img := ⟨fun _ => false, fun _ => none⟩ }

/-- Witness for C4 at a concrete empty document. -/
theorem claim_C4_witness :
    (HTMLConverter.runPipeline envC4 "empty.md" none "default" true true).2 =
      [("empty.html",
        BaseTheme.render (get_theme "default") "" "" "empty" 0 true)] ∧
    BaseTheme.toc_block "" = "" ∧
    begins "<!DOCTYPE html>".toList
      (BaseTheme.render (get_theme "default") "" "" "empty" 0 true).toList
      = true :=
  ⟨(claim_C4 envC4 "empty.md" none "default" true true rfl rfl rfl rfl).1,
    (claim_C4 envC4 "empty.md" none "default" true true rfl rfl rfl rfl).2.1,
    (claim_C4 envC4 "empty.md" none "default" true true rfl rfl rfl rfl).2.2.2⟩
